import Mathlib

/-!
# Verification of the macro-market-matrix ticker-resolution scripts

Shallow embedding, in Lean, of the pure logic of the repository's six Python
modules (`financials.py`, `yf_lookup.py`, `company_info.py`, `utils.py`,
`file_utils.py`, `process_market_data.py`), together with theorems about the
embedded code.  External effects (network calls, the wall clock, the file
system) are passed in explicitly: provider responses become function
arguments, the clock becomes a time argument, the directory becomes a list of
existing file names.  Python `dict`s are modelled as insertion-ordered
association lists, Python `float` times as rationals.
-/

/-! ## Python string primitives (ASCII semantics, as used by the scripts) -/

/-- `str.lower()` restricted to ASCII, which is all the scripts feed it. -/
def pyLower (s : String) : String := ⟨s.data.map Char.toLower⟩

/-- Does `pat` occur as a prefix of some suffix of `l`?  (Python `pat in s`.)
The empty pattern is contained in every string, as in Python. -/
def containsSub (pat : List Char) : List Char → Bool
  | [] => pat.isEmpty
  | c :: cs => pat.isPrefixOf (c :: cs) || containsSub pat cs

/-- Python substring test `needle in hay`. -/
def pyIn (needle hay : String) : Bool := containsSub needle.data hay.data

/-- Left-to-right non-overlapping replacement, one scan step per unit of fuel.
`fuel = length + 1` always suffices, since every step consumes at least one
character of the remaining input. -/
def replaceFuel (pat rep : List Char) : Nat → List Char → List Char
  | 0, s => s
  | _ + 1, [] => []
  | fuel + 1, c :: cs =>
    if pat.isPrefixOf (c :: cs) then
      rep ++ replaceFuel pat rep fuel ((c :: cs).drop pat.length)
    else
      c :: replaceFuel pat rep fuel cs

/-- Python `s.replace(pat, rep)`: replace every non-overlapping occurrence,
scanning left to right.  The scripts never call it with an empty pattern, so
that case (where Python would interleave `rep` everywhere) is mapped to the
identity. -/
def pyReplace (s pat rep : String) : String :=
  if pat.data.isEmpty then s
  else ⟨replaceFuel pat.data rep.data (s.data.length + 1) s.data⟩

/-- Python `s.strip()`: remove leading and trailing whitespace. -/
def pyStrip (s : String) : String :=
  ⟨((s.data.dropWhile Char.isWhitespace).reverse.dropWhile Char.isWhitespace).reverse⟩

/-- Worker for `pySplitWs`: `cur` holds the characters of the token currently
being read, in reverse order. -/
def splitWsGo : List Char → List Char → List String
  | [], cur => if cur.isEmpty then [] else [⟨cur.reverse⟩]
  | c :: cs, cur =>
    if c.isWhitespace then
      if cur.isEmpty then splitWsGo cs [] else ⟨cur.reverse⟩ :: splitWsGo cs []
    else
      splitWsGo cs (c :: cur)

/-- Python `s.split()` with no argument: split on runs of whitespace,
producing no empty tokens. -/
def pySplitWs (s : String) : List String := splitWsGo s.data []

/-! ## `financials.py` — `FinnhubClient.lookup_symbol` (symbol resolution)

One candidate returned by the provider's `symbol_lookup`; the code reads the
keys `"type"`, `"symbol"` and `"description"` of each result. -/

structure SearchResult where
  type : String
  symbol : String
  description : String
  deriving DecidableEq, Repr

/-- The corporate-suffix tokens stripped from a lowercased company name,
in the exact order the `for suffix in [...]` loop applies them
(`financials.py` lines 58–59). -/
def SUFFIXES : List String :=
  [" inc.", " inc", " corp.", " corp", " corporation", " ltd.", " ltd",
   " limited", " plc", " s.a.", " ag", " co.", ",", "."]

/-- `FinnhubClient.COMPANY_ALIASES` (insertion order preserved, as for a
Python dict). -/
def COMPANY_ALIASES : List (String × String) :=
  [("alphabet inc", "google"), ("meta platforms", "facebook"),
   ("amazon", "amazon.com"), ("berkshire hathaway", "brk")]

/-- Name clean-up in `lookup_symbol` (lines 57–61): lowercase, delete each
suffix token in order, then strip. -/
def normalize_name (company_name : String) : String :=
  pyStrip (SUFFIXES.foldl (fun acc suf => pyReplace acc suf "") (pyLower company_name))

/-- Alias substitution (lines 64–67): the first alias whose key is a
substring of the normalized name replaces the whole search term. -/
def apply_aliases (name_to_search : String) : String :=
  match COMPANY_ALIASES.find? (fun p => pyIn p.1 name_to_search) with
  | some p => p.2
  | none => name_to_search

/-- The search term `lookup_symbol` passes to `client.symbol_lookup`. -/
def search_term (company_name : String) : String :=
  apply_aliases (normalize_name company_name)

/-- Tier-1 test (lines 76–80): common stock, no `'.'` exchange suffix in the
ticker, and the lowercased description contains the transformed search name
or the lowercased original name. -/
def tier1 (name_to_search orig_lower : String) (r : SearchResult) : Bool :=
  r.type == "Common Stock" && !(pyIn "." r.symbol) &&
    ([name_to_search, orig_lower].any fun n => pyIn n (pyLower r.description))

/-- Tier-2 test (lines 83–90): common stock, no suffix, and more than half of
the search words occur among the description words.  The Python code compares
`len(search & desc) / len(search) > 0.5` in floating point; for the word-set
sizes involved this is exactly `2·|search ∩ desc| > |search|`.  (When the
search-word set is empty Python would raise `ZeroDivisionError`, but that
point is unreachable: an empty search term makes the tier-1 description test
vacuously true for every result that could reach the division.) -/
def tier2 (name_to_search : String) (r : SearchResult) : Bool :=
  r.type == "Common Stock" && !(pyIn "." r.symbol) &&
    (let desc_words := (pySplitWs (pyLower r.description)).toFinset
     let search_words := (pySplitWs name_to_search).toFinset
     search_words.card < 2 * (search_words ∩ desc_words).card)

/-- Tier-3 test (lines 93–95): any common stock. -/
def tier3 (r : SearchResult) : Bool := r.type == "Common Stock"

/-- One `for result in results: if pred: return result["symbol"]` loop. -/
def firstMatch (p : SearchResult → Bool) : List SearchResult → Option String
  | [] => none
  | r :: rs => if p r then some r.symbol else firstMatch p rs

/-- `FinnhubClient.lookup_symbol` (lines 52–101), with the provider's ordered
result list passed in explicitly: clean the name, substitute aliases, then
run the three tier loops in order; `None` when no tier matches (also when the
result list is empty, which the code treats via the falsy `results.get`). -/
def lookup_symbol (company_name : String) (results : List SearchResult) : Option String :=
  let nts := search_term company_name
  match firstMatch (tier1 nts (pyLower company_name)) results with
  | some s => some s
  | none =>
    match firstMatch (tier2 nts) results with
    | some s => some s
    | none => firstMatch tier3 results

/-! ## The fixed-window rate limiter (`_wait_for_rate_limit`)

Identical in `FinnhubClient` (`financials.py` 34–50), `CompanyInfoClient`
(`company_info.py` 26–42) and `YFinanceClient` (`yf_lookup.py` 27–43).
Time is a rational; the call returns the updated state and the duration the
`time.sleep` call blocks (0 when it does not sleep). -/

structure LimiterState where
  last_call_time : ℚ
  calls_this_minute : ℕ
  deriving DecidableEq, Repr

/-- Fresh client state (`last_call_time = 0`, `calls_this_minute = 0`). -/
def limiterInit : LimiterState := ⟨0, 0⟩

/-- `_wait_for_rate_limit`, at wall-clock time `current_time`.  Returns the
state after the call and the time slept. -/
def wait_for_rate_limit (rate_limit : ℕ) (st : LimiterState) (current_time : ℚ) :
    LimiterState × ℚ :=
  if st.last_call_time < current_time - 60 then
    ({ last_call_time := current_time, calls_this_minute := 0 + 1 }, 0)
  else if rate_limit ≤ st.calls_this_minute then
    ({ last_call_time := current_time, calls_this_minute := 0 + 1 },
      60 - (current_time - st.last_call_time))
  else
    ({ last_call_time := current_time, calls_this_minute := st.calls_this_minute + 1 }, 0)

/-! ## Python dicts as insertion-ordered association lists

`dictSet` mirrors `d[k] = v`: an existing key keeps its position and gets the
new value, a new key is appended.  `dictMerge` mirrors `{**a, **b}`. -/

def dictContains {α : Type} (d : List (String × α)) (k : String) : Bool :=
  d.any fun p => p.1 == k

def dictGet {α : Type} (d : List (String × α)) (k : String) : Option α :=
  (d.find? fun p => p.1 == k).map Prod.snd

def dictSet {α : Type} (d : List (String × α)) (k : String) (v : α) : List (String × α) :=
  if dictContains d k then d.map (fun p => if p.1 == k then (k, v) else p)
  else d ++ [(k, v)]

def dictMerge {α : Type} (a b : List (String × α)) : List (String × α) :=
  (a.map fun p =>
    match dictGet b p.1 with
    | some v => (p.1, v)
    | none => p) ++ b.filter fun p => !dictContains a p.1

/-- A value stored under a company name in a mapping artifact's `mappings`
object: a legacy plain-string ticker, JSON `null`, or the newer
`{"sym": ..., "notes": ...}` object. -/
inductive MapVal where
  | str (s : String)
  | null
  | obj (sym : Option String) (notes : Option String)
  deriving DecidableEq, Repr

/-- A metadata value (the scripts store counts and strings). -/
inductive MetaVal where
  | nat (n : ℕ)
  | str (s : String)
  | null
  deriving DecidableEq, Repr

/-! ## `process_market_data.py` — parallel taxonomy enrichment -/

structure Company where
  name : String
  market_cap : String
  deriving DecidableEq, Repr

/-- A sector of the input taxonomy `market_matrix.json`: a name and a list of
subsector names. -/
structure SectorIn where
  name : String
  subsectors : List String
  deriving DecidableEq, Repr

structure SubsectorOut where
  name : String
  companies : List Company
  deriving DecidableEq, Repr

/-- A sector of the enriched output `enriched_market_matrix.json`. -/
structure SectorOut where
  name : String
  subsectors : List SubsectorOut
  deriving DecidableEq, Repr

/-- `get_companies_for_subsector` (lines 14–84) with the provider call passed
in: on success the parsed company list, on an exception exactly 9 copies of
the placeholder row (line 84). -/
def get_companies_for_subsector (provider : String → String → Option (List Company))
    (sector subsector : String) : List Company :=
  match provider sector subsector with
  | some cs => cs
  | none => List.replicate 9 ⟨"Error processing " ++ subsector, "N/A"⟩

/-- The flat task list of `process_all_sectors` (lines 109–113): one
(sector name, subsector name) pair per subsector, in input order. -/
def sectorTasks (sectors : List SectorIn) : List (String × String) :=
  (sectors.map fun sec => sec.subsectors.map fun sub => (sec.name, sub)).flatten

/-- One step of an asynchronous completion schedule: the task at index `i`
finishes and its result is stored at slot `i`. -/
def scheduleStep (f : ℕ → List Company) (slots : List (Option (List Company))) (i : ℕ) :
    List (Option (List Company)) :=
  slots.set i (some (f i))

/-- Run `n` tasks to completion in the order given by `order`, starting from
empty slots.  `asyncio.gather` returns the slot list, which is indexed by
task, not by completion time. -/
def runSchedule (n : ℕ) (f : ℕ → List Company) (order : List ℕ) :
    List (Option (List Company)) :=
  order.foldl (scheduleStep f) (List.replicate n none)

/-- The `result_index` walk of lines 121–130, over one sector's subsector
names: `idx` is the running index into the gathered `results` list. -/
def enrichSubsectors (results : List (List Company)) : ℕ → List String → List SubsectorOut
  | _, [] => []
  | idx, sub :: subs => ⟨sub, results.getD idx []⟩ :: enrichSubsectors results (idx + 1) subs

/-- The outer sector loop of lines 121–130. -/
def enrichSectors (results : List (List Company)) : ℕ → List SectorIn → List SectorOut
  | _, [] => []
  | idx, sec :: secs =>
    ⟨sec.name, enrichSubsectors results idx sec.subsectors⟩ ::
      enrichSectors results (idx + sec.subsectors.length) secs

/-- `process_all_sectors` (lines 86–138): build the task list, gather every
task's result in task order, then reattach the results to the taxonomy by
running index. -/
def process_all_sectors (provider : String → String → Option (List Company))
    (sectors : List SectorIn) : List SectorOut :=
  let tasks := sectorTasks sectors
  let results := tasks.map fun t => get_companies_for_subsector provider t.1 t.2
  enrichSectors results 0 sectors

/-! ## `file_utils.py` — versioned mapping artifacts -/

/-- Index of the last occurrence of `c` in `l`, if any (Python `str.rfind`,
restricted to single characters, with `None` in place of `-1`). -/
def lastIdxOf (c : Char) : List Char → Option ℕ
  | [] => none
  | x :: xs =>
    match lastIdxOf c xs with
    | some i => some (i + 1)
    | none => if x == c then some 0 else none

/-- `os.path.splitext` on a POSIX path: split at the last `'.'` of the final
path component, unless every character of that component before the dot is
itself a dot (so a leading-dot name such as `".json"` has no extension). -/
def splitext (p : String) : String × String :=
  let l := p.data
  match lastIdxOf '.' l with
  | none => (p, "")
  | some d =>
    let fstart : ℕ :=
      match lastIdxOf '/' l with
      | none => 0
      | some s => s + 1
    let sepOk : Bool :=
      match lastIdxOf '/' l with
      | none => true
      | some s => decide (s < d)
    if sepOk && ((l.drop fstart).take (d - fstart)).any (fun ch => ch != '.') then
      (⟨l.take d⟩, ⟨l.drop d⟩)
    else (p, "")

/-- The candidate `f"{name}_{counter}{ext}"` of `get_next_available_filename`
(`file_utils.py` line 16, and the identical copy `yf_lookup.py` line 138). -/
def numbered_filename (base : String) (counter : ℕ) : String :=
  let ne := splitext base
  ⟨ne.1.data ++ '_' :: (Nat.repr counter).data ++ ne.2.data⟩

/-- Proof device (not from the source): the numeric value of a decimal digit
string, used to show that `Nat.repr` is injective, which bounds the
`while True` counter search of `get_next_available_filename`. -/
def charsVal (l : List Char) : ℕ :=
  l.foldl (fun a c => 10 * a + (c.toNat - 48)) 0

/-- `get_next_available_filename` (`file_utils.py` 6–19 = `yf_lookup.py`
128–141), with the set of existing files passed in: return `base` when it
does not exist, else the first free name among `base_2`, `base_3`, ….  The
source scans counters with `while True`; among the first `files.length + 1`
candidates at least one is free (the candidates are pairwise distinct), so
the search is bounded by that range and the final fallback is unreachable. -/
def get_next_available_filename (files : List String) (base : String) : String :=
  if base ∈ files then
    match (List.range (files.length + 1)).find?
        (fun i => !(numbered_filename base (2 + i) ∈ files : Bool)) with
    | some i => numbered_filename base (2 + i)
    | none => numbered_filename base (2 + files.length + 1)
  else base

/-- `get_total_companies` (`file_utils.py` 43–56): the company count of
`enriched_market_matrix.json`, or 0 when the file cannot be read (`none`). -/
def get_total_companies (taxonomy : Option (List SectorOut)) : ℕ :=
  match taxonomy with
  | none => 0
  | some m => (m.map fun sec => (sec.subsectors.map fun sub => sub.companies.length).sum).sum

/-- `file_utils.save_mappings` (lines 58–74): choose the next free filename,
overwrite the caller's `total_companies` with the count recomputed from the
taxonomy file, and write `{metadata, mappings}`.  Returns the chosen filename
and the written document. -/
def save_mappings (files : List String) (taxonomy : Option (List SectorOut))
    (mappings : List (String × MapVal)) (metadata : List (String × MetaVal))
    (base : String := "company_ticker_map.json") :
    String × (List (String × MetaVal) × List (String × MapVal)) :=
  (get_next_available_filename files base,
    (dictSet metadata "total_companies" (.nat (get_total_companies taxonomy)), mappings))

/-- The `save_mappings` copy in `yf_lookup.py` (lines 143–153): same filename
choice, but the metadata is written exactly as supplied — no recomputation of
`total_companies`. -/
def yf_save_mappings (files : List String) (mappings : List (String × MapVal))
    (metadata : List (String × MetaVal)) (base : String := "company_ticker_map.json") :
    String × (List (String × MetaVal) × List (String × MapVal)) :=
  (get_next_available_filename files base, (metadata, mappings))

/-! ## The batch orchestration loops -/

/-- One iteration of the unmapped-companies loop (`financials.py` 185–197 =
`yf_lookup.py` 227–239): the accumulator is `(new_mappings, names sent to the
resolver)`.  A name already a key of the prior mapping (exact string match)
is skipped; otherwise the resolver runs and the name is recorded only when
the returned ticker is truthy (non-`None` and non-empty). -/
def unmappedStep (resolver : String → Option String) (existing : List (String × MapVal))
    (acc : List (String × MapVal) × List String) (name : String) :
    List (String × MapVal) × List String :=
  if dictContains existing name then acc
  else
    match resolver name with
    | some t => if t = "" then (acc.1, acc.2 ++ [name]) else (dictSet acc.1 name (.str t), acc.2 ++ [name])
    | none => (acc.1, acc.2 ++ [name])

/-- The resolution loop of `process_unmapped_companies`, returning the
`new_mappings` dict it builds and the list of names it sent to the resolver. -/
def process_unmapped (resolver : String → Option String) (unmapped : List String)
    (existing : List (String × MapVal)) : List (String × MapVal) × List String :=
  unmapped.foldl (unmappedStep resolver existing) ([], [])

/-- The updated mapping `{**existing_mappings, **new_mappings}` that a
successful run saves (`financials.py` 201 = `yf_lookup.py` 243). -/
def updated_mappings (resolver : String → Option String) (unmapped : List String)
    (existing : List (String × MapVal)) : List (String × MapVal) :=
  dictMerge existing (process_unmapped resolver unmapped existing).1

/-- The company loop of `create_company_ticker_map` (`financials.py` 128–141 =
`yf_lookup.py` 175–188), over the flattened list of taxonomy company names:
skip names already in the map being built, then record the resolved ticker
only when it is truthy. -/
def createStep (resolver : String → Option String) (acc : List (String × MapVal))
    (name : String) : List (String × MapVal) :=
  if dictContains acc name then acc
  else
    match resolver name with
    | some t => if t = "" then acc else dictSet acc name (.str t)
    | none => acc

def create_ticker_loop (resolver : String → Option String) (names : List String) :
    List (String × MapVal) :=
  names.foldl (createStep resolver) []

/-- One row of the Perplexity batch answer (`get_tickers_from_perplexity`
returns `{name, sym, notes}` objects, `sym` possibly `null`). -/
structure PerplexityRow where
  name : String
  sym : Option String
  notes : Option String
  deriving DecidableEq, Repr

/-- The accumulation loop of `process_unmapped_with_perplexity`
(`process_market_data.py` 323–331), over the concatenation of all batch
results: `new_mappings[result["name"]] = result["sym"]`, unconditionally,
null or not. -/
def perplexityStep (acc : List (String × MapVal)) (r : PerplexityRow) :
    List (String × MapVal) :=
  dictSet acc r.name (match r.sym with | some s => MapVal.str s | none => MapVal.null)

def perplexity_new_mappings (results : List PerplexityRow) : List (String × MapVal) :=
  results.foldl perplexityStep []

/-! ## Readers of the two mapping-value shapes

`company_info.fetch_all_company_profiles` (lines 78–84) and
`utils.count_unique_tickers` (lines 124–132) both branch with
`isinstance(value, dict)`; `utils.clean_duplicate_tickers` (lines 166–176)
does not. -/

/-- The symbol set of `fetch_all_company_profiles` (`company_info.py` 78–84):
for an object value, add `value["sym"]` when truthy (`if mapping.get("sym")`),
for a plain value add it when truthy (`elif mapping`). -/
def profile_symbols (mappings : List (String × MapVal)) : Finset String :=
  mappings.foldl
    (fun acc p =>
      match p.2 with
      | .obj (some s) _ => if s = "" then acc else insert s acc
      | .obj none _ => acc
      | .str t => if t = "" then acc else insert t acc
      | .null => acc)
    ∅

/-- The symbol set of `count_unique_tickers` (`utils.py` 124–132): for an
object value, add `value["sym"]` when it `is not None` (an empty string is
added), for a plain value add it when it `is not None`. -/
def unique_tickers (mappings : List (String × MapVal)) : Finset String :=
  mappings.foldl
    (fun acc p =>
      match p.2 with
      | .obj (some s) _ => insert s acc
      | .obj none _ => acc
      | .str t => insert t acc
      | .null => acc)
    ∅

/-- `count_unique_tickers`'s return value. -/
def count_unique_tickers (mappings : List (String × MapVal)) : ℕ :=
  (unique_tickers mappings).card

/-! ## `utils.clean_duplicate_tickers` (lines 144–221) -/

/-- A raised Python exception, for the one failure the embedding can reach:
using an unhashable `dict` as a dictionary key. -/
inductive PyErr where
  | typeError
  deriving DecidableEq, Repr

/-- Append `company` to the group of `ticker` in the insertion-ordered
grouping dict (`ticker_to_companies`), creating the group if absent. -/
def appendGroup (g : List (String × List String)) (ticker company : String) :
    List (String × List String) :=
  if dictContains g ticker then
    g.map fun p => if p.1 == ticker then (p.1, p.2 ++ [company]) else p
  else g ++ [(ticker, [company])]

/-- The grouping loop of lines 167–172.  A `None` value is skipped before any
dict operation; a plain string becomes a key of `ticker_to_companies`; an
object value reaches `ticker not in ticker_to_companies` unconverted, and a
Python `dict` is unhashable there — a `TypeError`, which the code does not
catch (its handler logs and re-raises). -/
def groupStep (acc : Except PyErr (List (String × List String))) (p : String × MapVal) :
    Except PyErr (List (String × List String)) :=
  match acc with
  | .error e => .error e
  | .ok g =>
    match p.2 with
    | .null => .ok g
    | .str t => .ok (appendGroup g t p.1)
    | .obj _ _ => .error .typeError

def group_tickers (mappings : List (String × MapVal)) :
    Except PyErr (List (String × List String)) :=
  mappings.foldl groupStep (.ok [])

/-- Lines 175–176: the tickers used by more than one company, with the full
company list of each. -/
def duplicatesOf (g : List (String × List String)) : List (String × List String) :=
  g.filter fun p => 1 < p.2.length

/-- The note text of line 192. -/
def duplicateNote (others : List String) : String :=
  "Duplicate ticker used by: " ++ String.intercalate ", " others

/-- Lines 187–198, the annotated value written for one `(company, ticker)`
entry.  Matching the source, `ticker in duplicates` needs a hashable value,
so an object value is again a `TypeError`; `None` is hashable and is simply
not a key of `duplicates`. -/
def annotateVal (dups : List (String × List String)) (company : String) :
    MapVal → Except PyErr MapVal
  | .str t =>
    if dictContains dups t then
      .ok (.obj (some t) (some (duplicateNote (((dictGet dups t).getD []).filter (· ≠ company)))))
    else .ok (.obj (some t) none)
  | .null => .ok (.obj none none)
  | .obj _ _ => .error .typeError

/-- The annotation loop of lines 186–198, building `new_mappings` in the
iteration order of the original mapping. -/
def annotateStep (dups : List (String × List String))
    (acc : Except PyErr (List (String × MapVal))) (p : String × MapVal) :
    Except PyErr (List (String × MapVal)) :=
  match acc with
  | .error e => .error e
  | .ok m =>
    match annotateVal dups p.1 p.2 with
    | .error e => .error e
    | .ok v => .ok (dictSet m p.1 v)

def annotate_mappings (mappings : List (String × MapVal))
    (dups : List (String × List String)) : Except PyErr (List (String × MapVal)) :=
  mappings.foldl (annotateStep dups) (.ok [])

/-- `clean_duplicate_tickers` on the data of the latest mapping file:
`.ok none` when no ticker is duplicated (nothing is written), otherwise
`.ok (some (annotated, duplicates))` for the new artifact's mappings, or the
uncaught `TypeError` when a value is an object. -/
def clean_duplicate_tickers (mappings : List (String × MapVal)) :
    Except PyErr (Option (List (String × MapVal) × List (String × List String))) :=
  match group_tickers mappings with
  | .error e => .error e
  | .ok g =>
    let dups := duplicatesOf g
    if dups.isEmpty then .ok none
    else
      match annotate_mappings mappings dups with
      | .error e => .error e
      | .ok m => .ok (some (m, dups))

/-- All companies of `mappings` whose value is exactly the plain ticker `t`,
in iteration order — the intended content of `ticker_to_companies[t]`. -/
def companies_sharing (mappings : List (String × MapVal)) (t : String) : List String :=
  (mappings.filter fun p => p.2 = MapVal.str t).map Prod.fst

/-! ## Association-list (Python dict) lemmas -/

theorem dictContains_append {α : Type} (a b : List (String × α)) (k : String) :
    dictContains (a ++ b) k = (dictContains a k || dictContains b k) := by
  simp [dictContains, List.any_append]

theorem dictContains_eq_isSome {α : Type} (d : List (String × α)) (k : String) :
    dictContains d k = (dictGet d k).isSome := by
  induction d with
  | nil => rfl
  | cons hd tl ih =>
    by_cases h : hd.1 == k
    · simp [dictContains, dictGet, List.find?_cons, h, List.any_cons]
    · simp [dictContains, dictGet, List.find?_cons, h, List.any_cons] at ih ⊢
      simpa [dictContains, dictGet] using ih

theorem dictGet_eq_none {α : Type} {d : List (String × α)} {k : String}
    (h : dictContains d k = false) : dictGet d k = none := by
  have := dictContains_eq_isSome d k
  rw [h] at this
  exact Option.not_isSome_iff_eq_none.mp (by simp [← this])

theorem dictContains_of_mem {α : Type} {d : List (String × α)} {k : String} {v : α}
    (h : (k, v) ∈ d) : dictContains d k = true := by
  simp only [dictContains, List.any_eq_true]
  exact ⟨(k, v), h, by simp⟩


theorem dictGet_cons {α : Type} (hd : String × α) (tl : List (String × α)) (k : String) :
    dictGet (hd :: tl) k = if hd.1 = k then some hd.2 else dictGet tl k := by
  by_cases h : hd.1 = k <;> simp [dictGet, List.find?_cons, beq_iff_eq, h]

theorem dictGet_mapUpdate {α : Type} (d : List (String × α)) (k k' : String) (v : α) :
    dictGet (d.map fun p => if p.1 == k then (k, v) else p) k' =
      if k' = k then (dictGet d k).map (fun _ => v) else dictGet d k' := by
  induction d with
  | nil => simp [dictGet]
  | cons hd tl ih =>
    simp only [List.map_cons, dictGet_cons, ih]
    by_cases h : hd.1 = k
    · by_cases h' : k' = k
      · subst h'
        simp [h]
      · have hkk' : ¬k = k' := fun e => h' e.symm
        have hne : ¬hd.1 = k' := by rw [h]; exact hkk'
        simp [h, h', hne, hkk']
    · by_cases h' : k' = k
      · subst h'
        simp [h]
      · by_cases h2 : hd.1 = k' <;> simp [h, h', h2]

theorem dictGet_append {α : Type} (a b : List (String × α)) (k : String) :
    dictGet (a ++ b) k = ((dictGet a k).or (dictGet b k)) := by
  simp only [dictGet, List.find?_append]
  cases a.find? (fun p => p.1 == k) <;> simp [Option.or]

theorem dictGet_dictSet {α : Type} (d : List (String × α)) (k k' : String) (v : α) :
    dictGet (dictSet d k v) k' = if k' = k then some v else dictGet d k' := by
  unfold dictSet
  by_cases hc : dictContains d k
  · rw [if_pos hc, dictGet_mapUpdate]
    by_cases h' : k' = k
    · rw [if_pos h', if_pos h']
      rw [dictContains_eq_isSome] at hc
      cases hg : dictGet d k
      · rw [hg] at hc; simp at hc
      · simp
    · rw [if_neg h', if_neg h']
  · simp only [Bool.not_eq_true] at hc
    rw [if_neg (by simp [hc]), dictGet_append]
    by_cases h' : k' = k
    · subst h'
      rw [dictGet_eq_none hc]
      simp [dictGet_cons, Option.or]
    · have hkk' : ¬k = k' := fun e => h' e.symm
      have hsingle : dictGet [(k, v)] k' = none := by
        rw [dictGet_cons]
        simp [hkk', dictGet]
      rw [hsingle, if_neg h']
      cases dictGet d k' <;> simp [Option.or]

theorem dictContains_dictSet {α : Type} (d : List (String × α)) (k k' : String) (v : α) :
    dictContains (dictSet d k v) k' = (dictContains d k' || (k' == k)) := by
  rw [dictContains_eq_isSome, dictGet_dictSet]
  by_cases h' : k' = k <;> simp [h', dictContains_eq_isSome, beq_iff_eq]

theorem mem_dictSet {α : Type} {d : List (String × α)} {k : String} {v : α}
    {p : String × α} (h : p ∈ dictSet d k v) : p ∈ d ∨ p = (k, v) := by
  unfold dictSet at h
  by_cases hc : dictContains d k
  · rw [if_pos hc] at h
    obtain ⟨q, hq, hfq⟩ := List.mem_map.mp h
    by_cases hq1 : q.1 == k
    · rw [if_pos hq1] at hfq; exact Or.inr hfq.symm
    · rw [if_neg hq1] at hfq; exact Or.inl (hfq ▸ hq)
  · rw [if_neg hc] at h
    rcases List.mem_append.mp h with h | h
    · exact Or.inl h
    · exact Or.inr (List.mem_singleton.mp h)

theorem dictContains_dictMerge {α : Type} (a b : List (String × α)) (k : String)
    (h : dictContains a k = true ∨ dictContains b k = true) :
    dictContains (dictMerge a b) k = true := by
  unfold dictMerge
  rw [dictContains_append]
  by_cases ha : dictContains a k = true
  · apply Bool.or_eq_true_iff.mpr
    left
    simp only [dictContains, List.any_eq_true] at ha ⊢
    obtain ⟨q, hq, hk⟩ := ha
    refine ⟨_, List.mem_map.mpr ⟨q, hq, rfl⟩, ?_⟩
    cases hg : dictGet b q.1 <;> simp [hg] at hk ⊢ <;> exact hk
  · have ha' : dictContains a k = false := by
      revert ha; cases dictContains a k <;> simp
    rcases h with h | h
    · exact absurd h ha
    · apply Bool.or_eq_true_iff.mpr
      right
      simp only [dictContains, List.any_eq_true] at h ⊢
      obtain ⟨q, hq, hk⟩ := h
      refine ⟨q, List.mem_filter.mpr ⟨hq, ?_⟩, hk⟩
      rw [beq_iff_eq] at hk
      have hq1 : dictContains a q.1 = false := by rw [hk]; exact ha'
      simp [hq1]
      intro x y hxy e
      have hmem : dictContains a q.1 = true := dictContains_of_mem (e ▸ hxy)
      rw [hmem] at hq1
      cases hq1

/-! ## Claim theorems -/

/-- C3, counterexample: for the input "Alphabet Inc." the search term that
`lookup_symbol` passes to the provider is not "google" — the claim that alias
substitution maps "Alphabet Inc." to "google" is false on the code, even
though the alias map does contain the pair ("alphabet inc", "google"). -/
theorem c3_alias_search_term_counterexample :
    search_term "Alphabet Inc." ≠ "google" ∧
    ("alphabet inc", "google") ∈ COMPANY_ALIASES := by
  constructor
  · decide
  · decide

/-- C3, amended: normalization runs first and `replace(' inc.', '')` deletes
the whole suffix, so "Alphabet Inc." normalizes to "alphabet"; the alias key
"alphabet inc" is then not a substring of the normalized name, alias
substitution does not fire, and the search term passed to the provider is
"alphabet". -/
theorem c3_alias_search_term_amended :
    normalize_name "Alphabet Inc." = "alphabet" ∧
    pyIn "alphabet inc" (normalize_name "Alphabet Inc.") = false ∧
    search_term "Alphabet Inc." = "alphabet" := by
  refine ⟨by decide, by decide, by decide⟩

/-- C2: when `_wait_for_rate_limit` runs at a time less than 60 s after the
last recorded call and the in-window counter has reached the capacity, it
sleeps exactly `60 − (now − last_call_time)` seconds — so it returns no
earlier than 60 s after any window start at or before the last recorded
call — and leaves the counter at 1; in particular, with capacity 2 the third
acquire of a 60-second window (three monotone call times within 60 s of the
first) returns at or after `t0 + 60` and leaves the counter at 1. -/
theorem c2_rate_limiter_third_acquire_blocks :
    (∀ (cap : ℕ) (st : LimiterState) (now ws : ℚ),
        now - st.last_call_time < 60 →
        cap ≤ st.calls_this_minute →
        ws ≤ st.last_call_time →
        (wait_for_rate_limit cap st now).2 = 60 - (now - st.last_call_time) ∧
        ws + 60 ≤ now + (wait_for_rate_limit cap st now).2 ∧
        (wait_for_rate_limit cap st now).1.calls_this_minute = 1) ∧
    (∀ t0 t1 t2 : ℚ, t0 ≤ t1 → t1 ≤ t2 → t2 < t0 + 60 →
        t0 + 60 ≤ t2 +
          (wait_for_rate_limit 2
            (wait_for_rate_limit 2 (wait_for_rate_limit 2 limiterInit t0).1 t1).1 t2).2 ∧
        (wait_for_rate_limit 2
            (wait_for_rate_limit 2 (wait_for_rate_limit 2 limiterInit t0).1 t1).1 t2).1.calls_this_minute
          = 1) := by
  constructor
  · intro cap st now ws hwin hfull hws
    have hb : ¬st.last_call_time < now - 60 := by linarith
    rw [wait_for_rate_limit, if_neg hb, if_pos hfull]
    refine ⟨rfl, by simp; linarith, rfl⟩
  · intro t0 t1 t2 h01 h12 h2w
    have a1 : wait_for_rate_limit 2 limiterInit t0 = (⟨t0, 1⟩, 0) := by
      rw [wait_for_rate_limit]
      by_cases hb : limiterInit.last_call_time < t0 - 60
      · rw [if_pos hb]
      · rw [if_neg hb, if_neg (by simp [limiterInit])]
        rfl
    have a2 : wait_for_rate_limit 2 (⟨t0, 1⟩ : LimiterState) t1 = (⟨t1, 2⟩, 0) := by
      rw [wait_for_rate_limit]
      have hb : ¬(⟨t0, 1⟩ : LimiterState).last_call_time < t1 - 60 := by
        simp only [LimiterState.mk.injEq]
        push_neg
        linarith
      rw [if_neg hb, if_neg (by simp)]
    have a3 : wait_for_rate_limit 2 (⟨t1, 2⟩ : LimiterState) t2 =
        (⟨t2, 1⟩, 60 - (t2 - t1)) := by
      rw [wait_for_rate_limit]
      have hb : ¬(⟨t1, 2⟩ : LimiterState).last_call_time < t2 - 60 := by
        simp only []
        push_neg
        linarith
      rw [if_neg hb, if_pos (by simp)]
    rw [a1, a2, a3]
    constructor
    · simp
      linarith
    · rfl

/-- C2, witness: the general clause at capacity 2, state `(0, 2)`, time 30,
window start 0; the scenario clause at call times 0, 10, 20. -/
theorem c2_rate_limiter_third_acquire_blocks_witness :
    ((wait_for_rate_limit 2 ⟨0, 2⟩ 30).2 = 60 - (30 - 0) ∧
      (0 : ℚ) + 60 ≤ 30 + (wait_for_rate_limit 2 ⟨0, 2⟩ 30).2 ∧
      (wait_for_rate_limit 2 ⟨0, 2⟩ 30).1.calls_this_minute = 1) ∧
    ((0 : ℚ) + 60 ≤ 20 +
        (wait_for_rate_limit 2
          (wait_for_rate_limit 2 (wait_for_rate_limit 2 limiterInit 0).1 10).1 20).2 ∧
      (wait_for_rate_limit 2
          (wait_for_rate_limit 2 (wait_for_rate_limit 2 limiterInit 0).1 10).1 20).1.calls_this_minute
        = 1) := by
  constructor
  · exact c2_rate_limiter_third_acquire_blocks.1 2 ⟨0, 2⟩ 30 0 (by norm_num) (by norm_num)
      (by norm_num)
  · exact c2_rate_limiter_third_acquire_blocks.2 0 10 20 (by norm_num) (by norm_num)
      (by norm_num)

/-- C9, counterexample: the `save_mappings` copy in `yf_lookup.py` writes the
caller's metadata unchanged — with caller-supplied `total_companies = 7` and
a taxonomy containing a single company, the written value stays 7 instead of
the recomputed count 1. -/
theorem c9_total_companies_counterexample :
    dictGet (yf_save_mappings [] [] [("total_companies", MetaVal.nat 7)]).2.1
        "total_companies" = some (MetaVal.nat 7) ∧
    get_total_companies
        (some [⟨"Tech", [⟨"Software", [⟨"OnlyCo", "1B"⟩]⟩]⟩]) = 1 ∧
    some (MetaVal.nat 7) ≠ some (MetaVal.nat 1) := by
  refine ⟨by decide, by decide, by decide⟩

/-- C9, amended: `file_utils.save_mappings` always overwrites the caller's
`total_companies` with the count computed from `enriched_market_matrix.json`;
the copy in `yf_lookup.py`, which the yfinance flows call, performs no such
recomputation and writes the caller-supplied metadata verbatim. -/
theorem c9_total_companies_amended :
    (∀ (files : List String) (taxonomy : Option (List SectorOut))
        (mappings : List (String × MapVal)) (metadata : List (String × MetaVal))
        (base : String),
        dictGet (save_mappings files taxonomy mappings metadata base).2.1 "total_companies"
          = some (MetaVal.nat (get_total_companies taxonomy))) ∧
    (∀ (files : List String) (mappings : List (String × MapVal))
        (metadata : List (String × MetaVal)) (base : String),
        (yf_save_mappings files mappings metadata base).2.1 = metadata) := by
  constructor
  · intro files taxonomy mappings metadata base
    show dictGet (dictSet metadata "total_companies" _) "total_companies" = _
    rw [dictGet_dictSet]
    simp
  · intro files mappings metadata base
    rfl

theorem firstMatch_eq_find? (p : SearchResult → Bool) (rs : List SearchResult) :
    firstMatch p rs = (rs.find? p).map SearchResult.symbol := by
  induction rs with
  | nil => rfl
  | cons r rs ih =>
    by_cases h : p r <;> simp [firstMatch, List.find?_cons, h, ih]

theorem half_lt_div_iff (a b : ℕ) (h : a ≤ b) :
    ((1 : ℚ) / 2 < (a : ℚ) / (b : ℚ)) ↔ b < 2 * a := by
  rcases Nat.eq_zero_or_pos b with hb | hb
  · subst hb
    have ha : a = 0 := Nat.le_zero.mp h
    subst ha
    norm_num
  · have hbq : (0 : ℚ) < (b : ℚ) := by exact_mod_cast hb
    rw [div_lt_div_iff₀ (by norm_num) hbq]
    constructor
    · intro hlt
      have : (b : ℚ) < 2 * (a : ℚ) := by linarith
      exact_mod_cast this
    · intro hlt
      have : (b : ℚ) < 2 * (a : ℚ) := by exact_mod_cast hlt
      linarith

theorem tier1_spelled (nts orig : String) :
    tier1 nts orig = fun r =>
      r.type == "Common Stock" && !(pyIn "." r.symbol) &&
        (pyIn nts (pyLower r.description) || pyIn orig (pyLower r.description)) := by
  funext r
  simp [tier1]

theorem tier2_spelled (nts : String) :
    tier2 nts = fun r =>
      r.type == "Common Stock" && !(pyIn "." r.symbol) &&
        decide ((1 : ℚ) / 2 <
          (((pySplitWs nts).toFinset ∩ (pySplitWs (pyLower r.description)).toFinset).card : ℚ) /
            ((pySplitWs nts).toFinset.card : ℚ)) := by
  funext r
  simp only [tier2]
  have hle : ((pySplitWs nts).toFinset ∩ (pySplitWs (pyLower r.description)).toFinset).card ≤
      (pySplitWs nts).toFinset.card :=
    Finset.card_le_card Finset.inter_subset_left
  rw [show (decide ((pySplitWs nts).toFinset.card <
        2 * ((pySplitWs nts).toFinset ∩ (pySplitWs (pyLower r.description)).toFinset).card)) =
      decide ((1 : ℚ) / 2 <
        ((((pySplitWs nts).toFinset ∩ (pySplitWs (pyLower r.description)).toFinset).card : ℚ) /
          ((pySplitWs nts).toFinset.card : ℚ)))
    from decide_eq_decide.mpr (half_lt_div_iff _ _ hle).symm]

/-- C1: for every query and every ordered provider result list,
`lookup_symbol` returns the symbol of the first Tier-1 result (Common Stock,
no `'.'` suffix, description containing the transformed or lowercased
original name), else of the first Common-Stock no-suffix result whose
token-overlap ratio `|query words ∩ description words| / |query word set|`
exceeds one half, else of the first Common-Stock result of any suffix, and
`none` when no tier matches; in particular the query "abc corp" over
`[ABC.L, ABC]`, both Common Stock with description "abc corp", resolves to
"ABC" and never "ABC.L". -/
theorem c1_lookup_symbol_tiering :
    (∀ (company_name : String) (results : List SearchResult),
      lookup_symbol company_name results =
        (((results.find? fun r =>
              r.type == "Common Stock" && !(pyIn "." r.symbol) &&
                (pyIn (search_term company_name) (pyLower r.description) ||
                  pyIn (pyLower company_name) (pyLower r.description))).map
            SearchResult.symbol).or
          ((((results.find? fun r =>
                r.type == "Common Stock" && !(pyIn "." r.symbol) &&
                  decide ((1 : ℚ) / 2 <
                    (((pySplitWs (search_term company_name)).toFinset ∩
                        (pySplitWs (pyLower r.description)).toFinset).card : ℚ) /
                      ((pySplitWs (search_term company_name)).toFinset.card : ℚ))).map
              SearchResult.symbol)).or
            ((results.find? fun r => r.type == "Common Stock").map SearchResult.symbol)))) ∧
    lookup_symbol "abc corp"
        [⟨"Common Stock", "ABC.L", "abc corp"⟩, ⟨"Common Stock", "ABC", "abc corp"⟩]
      = some "ABC" ∧
    lookup_symbol "abc corp"
        [⟨"Common Stock", "ABC.L", "abc corp"⟩, ⟨"Common Stock", "ABC", "abc corp"⟩]
      ≠ some "ABC.L" := by
  refine ⟨?_, by decide, by decide⟩
  intro company_name results
  unfold lookup_symbol
  simp only [firstMatch_eq_find?]
  rw [tier1_spelled, tier2_spelled]
  have htier3 : tier3 = fun r : SearchResult => r.type == "Common Stock" := by
    funext r
    rfl
  rw [htier3]
  cases results.find? _ <;> cases results.find? _ <;> simp [Option.or]

theorem create_loop_values (resolver : String → Option String) :
    ∀ (names : List String) (acc : List (String × MapVal)),
      (∀ p ∈ acc, ∃ s, p.2 = MapVal.str s) →
      ∀ p ∈ names.foldl (createStep resolver) acc, ∃ s, p.2 = MapVal.str s := by
  intro names
  induction names with
  | nil =>
    intro acc hacc p hp
    rw [List.foldl_nil] at hp
    exact hacc p hp
  | cons n ns ih =>
    intro acc hacc p hp
    rw [List.foldl_cons] at hp
    refine ih _ ?_ p hp
    intro q hq
    unfold createStep at hq
    split at hq
    · exact hacc q hq
    · split at hq
      · split at hq
        · exact hacc q hq
        · rcases mem_dictSet hq with h | h
          · exact hacc q h
          · exact ⟨_, by rw [h]⟩
      · exact hacc q hq

theorem unmapped_loop_values (resolver : String → Option String)
    (existing : List (String × MapVal)) :
    ∀ (l : List String) (acc : List (String × MapVal) × List String),
      (∀ p ∈ acc.1, ∃ s, p.2 = MapVal.str s) →
      ∀ p ∈ (l.foldl (unmappedStep resolver existing) acc).1, ∃ s, p.2 = MapVal.str s := by
  intro l
  induction l with
  | nil =>
    intro acc hacc p hp
    rw [List.foldl_nil] at hp
    exact hacc p hp
  | cons n ns ih =>
    intro acc hacc p hp
    rw [List.foldl_cons] at hp
    refine ih _ ?_ p hp
    intro q hq
    unfold unmappedStep at hq
    split at hq
    · exact hacc q hq
    · split at hq
      · split at hq
        · exact hacc q hq
        · rcases mem_dictSet hq with h | h
          · exact hacc q h
          · exact ⟨_, by rw [h]⟩
      · exact hacc q hq

theorem perplexity_null_mem :
    ∀ (results : List PerplexityRow) (acc : List (String × MapVal)) (k : String),
      (k, MapVal.null) ∈ results.foldl perplexityStep acc →
      (k, MapVal.null) ∈ acc ∨ ∃ r ∈ results, r.name = k ∧ r.sym = none := by
  intro results
  induction results with
  | nil =>
    intro acc k h
    rw [List.foldl_nil] at h
    exact Or.inl h
  | cons r rs ih =>
    intro acc k h
    rw [List.foldl_cons] at h
    rcases ih _ k h with h' | ⟨r', hr', hname, hsym⟩
    · unfold perplexityStep at h'
      rcases mem_dictSet h' with h'' | h''
      · exact Or.inl h''
      · cases hs : r.sym with
        | some s =>
          rw [hs] at h''
          cases h''
          -- (k, null) = (r.name, .str s) is impossible
        | none =>
          right
          rw [hs] at h''
          have hname : r.name = k := by
            have := congrArg Prod.fst h''
            simpa using this.symm
          exact ⟨r, List.mem_cons_self r rs, hname, hs⟩
    · exact Or.inr ⟨r', List.mem_cons_of_mem r hr', hname, hsym⟩

/-- C10: the Finnhub/yfinance loops (`create_company_ticker_map` and
`process_unmapped_companies`) add a key only when the resolver returned a
truthy symbol, so every value they write is a non-null string; the Perplexity
batch flow inserts `result["sym"]` unconditionally, so a null-valued key in a
mapping artifact can only originate there — every null value it writes comes
from a row whose `sym` was null, and a null-sym row does produce one. -/
theorem c10_null_values_only_from_perplexity :
    (∀ (resolver : String → Option String) (names : List String) (p : String × MapVal),
        p ∈ create_ticker_loop resolver names → ∃ s, p.2 = MapVal.str s) ∧
    (∀ (resolver : String → Option String) (unmapped : List String)
        (existing : List (String × MapVal)) (p : String × MapVal),
        p ∈ (process_unmapped resolver unmapped existing).1 → ∃ s, p.2 = MapVal.str s) ∧
    (∀ (results : List PerplexityRow) (k : String),
        (k, MapVal.null) ∈ perplexity_new_mappings results →
          ∃ r ∈ results, r.name = k ∧ r.sym = none) ∧
    perplexity_new_mappings [⟨"X", none, none⟩] = [("X", MapVal.null)] := by
  refine ⟨?_, ?_, ?_, by decide⟩
  · intro resolver names p hp
    exact create_loop_values resolver names [] (by intro q hq; cases hq) p hp
  · intro resolver unmapped existing p hp
    exact unmapped_loop_values resolver existing unmapped ([], [])
      (by intro q hq; cases hq) p hp
  · intro results k h
    rcases perplexity_null_mem results [] k h with h' | h'
    · cases h'
    · exact h'

/-- C10, witness: a resolver returning "AAPL" makes both loops store the
non-null string value, and the one-row Perplexity batch with a null `sym`
yields the null-valued entry. -/
theorem c10_null_values_only_from_perplexity_witness :
    (∃ s, (("Apple Inc.", MapVal.str "AAPL") : String × MapVal).2 = MapVal.str s) ∧
    (∃ s, (("Apple Inc.", MapVal.str "AAPL") : String × MapVal).2 = MapVal.str s) ∧
    (∃ r ∈ ([⟨"X", none, none⟩] : List PerplexityRow), r.name = "X" ∧ r.sym = none) := by
  refine ⟨?_, ?_, ?_⟩
  · exact c10_null_values_only_from_perplexity.1 (fun _ => some "AAPL") ["Apple Inc."]
      ("Apple Inc.", MapVal.str "AAPL") (by decide)
  · exact c10_null_values_only_from_perplexity.2.1 (fun _ => some "AAPL") ["Apple Inc."] []
      ("Apple Inc.", MapVal.str "AAPL") (by decide)
  · exact c10_null_values_only_from_perplexity.2.2.1 [⟨"X", none, none⟩] "X" (by decide)

theorem unmapped_loop_called (resolver : String → Option String)
    (existing : List (String × MapVal)) :
    ∀ (l : List String) (acc : List (String × MapVal) × List String),
      (l.foldl (unmappedStep resolver existing) acc).2
        = acc.2 ++ l.filter fun n => !dictContains existing n := by
  intro l
  induction l with
  | nil => intro acc; simp
  | cons n ns ih =>
    intro acc
    rw [List.foldl_cons, List.filter_cons]
    by_cases h : dictContains existing n
    · have hstep : unmappedStep resolver existing acc n = acc := by
        unfold unmappedStep
        rw [if_pos h]
      rw [hstep, ih acc]
      simp [h]
    · have hstep : (unmappedStep resolver existing acc n).2 = acc.2 ++ [n] ∧
          ∃ m, unmappedStep resolver existing acc n = (m, acc.2 ++ [n]) := by
        unfold unmappedStep
        rw [if_neg h]
        cases resolver n with
        | none => exact ⟨rfl, _, rfl⟩
        | some t =>
          dsimp only
          by_cases ht : t = ""
          · rw [if_pos ht]
            exact ⟨rfl, _, rfl⟩
          · rw [if_neg ht]
            exact ⟨rfl, _, rfl⟩
      obtain ⟨m, hm⟩ := hstep.2
      rw [hm, ih]
      simp [h]

theorem unmapped_loop_mono (resolver : String → Option String)
    (existing : List (String × MapVal)) :
    ∀ (l : List String) (acc : List (String × MapVal) × List String) (k : String),
      dictContains acc.1 k = true →
      dictContains (l.foldl (unmappedStep resolver existing) acc).1 k = true := by
  intro l
  induction l with
  | nil => intro acc k h; simpa using h
  | cons n ns ih =>
    intro acc k h
    rw [List.foldl_cons]
    apply ih
    unfold unmappedStep
    split
    · exact h
    · split
      · split
        · exact h
        · rw [dictContains_dictSet, h]
          rfl
      · exact h

theorem unmapped_loop_adds (resolver : String → Option String)
    (existing : List (String × MapVal)) :
    ∀ (l : List String) (acc : List (String × MapVal) × List String) (n : String) (t : String),
      n ∈ l → dictContains existing n = false → resolver n = some t → t ≠ "" →
      dictContains (l.foldl (unmappedStep resolver existing) acc).1 n = true := by
  intro l
  induction l with
  | nil => intro acc n t hn; cases hn
  | cons m ms ih =>
    intro acc n t hn hE hr ht
    rw [List.foldl_cons]
    rcases List.mem_cons.mp hn with rfl | hmem
    · apply unmapped_loop_mono
      unfold unmappedStep
      rw [if_neg (by rw [hE]; simp), hr]
      dsimp only
      rw [if_neg ht]
      show dictContains (dictSet acc.1 n (MapVal.str t)) n = true
      rw [dictContains_dictSet]
      simp
    · exact ih _ n t hmem hE hr ht

theorem unmapped_loop_no_adds (resolver : String → Option String)
    (E : List (String × MapVal)) :
    ∀ (l : List String) (acc : List (String × MapVal) × List String),
      (∀ n ∈ l, dictContains E n = true ∨ resolver n = none ∨ resolver n = some "") →
      (l.foldl (unmappedStep resolver E) acc).1 = acc.1 := by
  intro l
  induction l with
  | nil => intro acc _; simp
  | cons n ns ih =>
    intro acc hl
    rw [List.foldl_cons]
    have hstep : (unmappedStep resolver E acc n).1 = acc.1 := by
      unfold unmappedStep
      rcases hl n (List.mem_cons_self n ns) with h | h | h
      · rw [if_pos h]
      · split
        · rfl
        · rw [h]
      · split
        · rfl
        · rw [h]
          rfl
    have := ih (unmappedStep resolver E acc n) (fun x hx => hl x (List.mem_cons_of_mem n hx))
    rw [this, hstep]

/-- C4: in `process_unmapped_companies`, every name that is already a key of
the prior mapping (exact string equality) is skipped and never sent to the
resolver, and — with a deterministic resolver — re-running over the same name
list with the merged mapping `{**existing, **new}` of a successful run as the
prior mapping adds zero new entries; in particular a second run over
`["X", "Y"]` starting from the result of a first run against an empty prior
mapping produces no new entries. -/
theorem c4_batch_idempotence :
    (∀ (resolver : String → Option String) (unmapped : List String)
        (existing : List (String × MapVal)) (name : String),
        dictContains existing name = true →
        name ∉ (process_unmapped resolver unmapped existing).2) ∧
    (∀ (resolver : String → Option String) (unmapped : List String)
        (existing : List (String × MapVal)),
        (process_unmapped resolver unmapped
          (updated_mappings resolver unmapped existing)).1 = []) ∧
    (∀ resolver : String → Option String,
        (process_unmapped resolver ["X", "Y"]
          (updated_mappings resolver ["X", "Y"] [])).1 = []) := by
  have main2 : ∀ (resolver : String → Option String) (unmapped : List String)
      (existing : List (String × MapVal)),
      (process_unmapped resolver unmapped
        (updated_mappings resolver unmapped existing)).1 = [] := by
    intro resolver unmapped existing
    unfold process_unmapped
    apply unmapped_loop_no_adds
    intro n hn
    by_cases hE : dictContains existing n = true
    · left
      exact dictContains_dictMerge _ _ _ (Or.inl hE)
    · cases hr : resolver n with
      | none => exact Or.inr (Or.inl rfl)
      | some t =>
        by_cases ht : t = ""
        · subst ht
          exact Or.inr (Or.inr rfl)
        · left
          apply dictContains_dictMerge
          right
          have hE' : dictContains existing n = false := by
            revert hE; cases dictContains existing n <;> simp
          exact unmapped_loop_adds resolver existing unmapped ([], []) n t hn hE' hr ht
  refine ⟨?_, main2, fun resolver => main2 resolver ["X", "Y"] []⟩
  intro resolver unmapped existing name h hmem
  unfold process_unmapped at hmem
  rw [unmapped_loop_called] at hmem
  simp only [List.nil_append, List.mem_filter] at hmem
  rw [h] at hmem
  simpa using hmem.2

/-- C4, witness: a name present in the prior mapping is not sent to the
resolver. -/
theorem c4_batch_idempotence_witness :
    "X" ∉ (process_unmapped (fun _ => none) ["X"] [("X", MapVal.str "T")]).2 :=
  c4_batch_idempotence.1 (fun _ => none) ["X"] [("X", MapVal.str "T")] "X" (by decide)

theorem groupStep_error (l : List (String × MapVal)) (e : PyErr) :
    l.foldl groupStep (Except.error e) = Except.error e := by
  induction l with
  | nil => rfl
  | cons p ps ih =>
    rw [List.foldl_cons]
    exact ih

theorem group_tickers_obj_error (c : String) (sym notes : Option String)
    (rest : List (String × MapVal)) :
    group_tickers ((c, MapVal.obj sym notes) :: rest) = Except.error PyErr.typeError := by
  unfold group_tickers
  rw [List.foldl_cons]
  exact groupStep_error rest PyErr.typeError

/-- C8: `fetch_all_company_profiles` and `count_unique_tickers` branch on the
value's type and read a symbol out of both value shapes (a plain string and a
`{sym, notes}` object), but `clean_duplicate_tickers` does not: it uses the
raw value as a dictionary key, and an object value raises an uncaught
`TypeError` (unhashable dict) instead of contributing its `sym` — shown both
in general and at the concrete object-valued mapping
`{"A": {sym "TIK"}, "B": {sym "TIK"}}` that the two tolerant readers reduce
to the symbol set `{"TIK"}`. -/
theorem c8_mapping_value_shapes :
    (∀ (c s : String) (mappings : List (String × MapVal)),
        profile_symbols ((c, MapVal.str s) :: mappings)
          = profile_symbols ((c, MapVal.obj (some s) none) :: mappings)) ∧
    (∀ (c s : String) (mappings : List (String × MapVal)),
        unique_tickers ((c, MapVal.str s) :: mappings)
          = unique_tickers ((c, MapVal.obj (some s) none) :: mappings)) ∧
    (∀ (c : String) (sym notes : Option String) (rest : List (String × MapVal)),
        clean_duplicate_tickers ((c, MapVal.obj sym notes) :: rest)
          = Except.error PyErr.typeError) ∧
    profile_symbols [("A", MapVal.obj (some "TIK") none), ("B", MapVal.obj (some "TIK") none)]
      = {"TIK"} ∧
    unique_tickers [("A", MapVal.obj (some "TIK") none), ("B", MapVal.obj (some "TIK") none)]
      = {"TIK"} ∧
    clean_duplicate_tickers
        [("A", MapVal.obj (some "TIK") none), ("B", MapVal.obj (some "TIK") none)]
      = Except.error PyErr.typeError := by
  refine ⟨fun c s mappings => rfl, fun c s mappings => rfl, ?_, by decide, by decide, ?_⟩
  · intro c sym notes rest
    unfold clean_duplicate_tickers
    rw [group_tickers_obj_error]
  · unfold clean_duplicate_tickers
    rw [group_tickers_obj_error]

theorem getD_append_length {α : Type} (pre : List α) (x : α) (rest : List α) (d : α) :
    (pre ++ x :: rest).getD pre.length d = x := by
  induction pre with
  | nil => rfl
  | cons a pre ih => simpa using ih

theorem enrichSubsectors_spec (g : String → List Company) :
    ∀ (subs : List String) (pre post : List (List Company)),
      enrichSubsectors (pre ++ (subs.map g ++ post)) pre.length subs
        = subs.map fun sub => ⟨sub, g sub⟩ := by
  intro subs
  induction subs with
  | nil => intro pre post; rfl
  | cons sub subs ih =>
    intro pre post
    show (⟨sub, (pre ++ (g sub :: (subs.map g ++ post))).getD pre.length []⟩ : SubsectorOut) ::
        enrichSubsectors (pre ++ (g sub :: (subs.map g ++ post))) (pre.length + 1) subs
      = _
    rw [getD_append_length]
    have hre : pre ++ (g sub :: (subs.map g ++ post))
        = (pre ++ [g sub]) ++ (subs.map g ++ post) := by
      simp
    have hlen : pre.length + 1 = (pre ++ [g sub]).length := by simp
    rw [List.map_cons, hre, hlen, ih (pre ++ [g sub]) post]

theorem enrichSectors_spec (f : String × String → List Company) :
    ∀ (secs : List SectorIn) (pre : List (List Company)),
      ((enrichSectors (pre ++ (sectorTasks secs).map f) pre.length secs).map
          SectorOut.subsectors).flatten
        = (sectorTasks secs).map fun t => ⟨t.2, f t⟩ := by
  intro secs
  induction secs with
  | nil => intro pre; rfl
  | cons sec secs ih =>
    intro pre
    have htasks : sectorTasks (sec :: secs)
        = sec.subsectors.map (fun sub => (sec.name, sub)) ++ sectorTasks secs := by
      simp [sectorTasks]
    rw [htasks, List.map_append]
    simp only [enrichSectors, List.map_cons, List.flatten_cons, List.map_append]
    have hmm : (sec.subsectors.map fun sub => (sec.name, sub)).map f
        = sec.subsectors.map fun sub => f (sec.name, sub) := by
      rw [List.map_map]
      rfl
    have h1 : enrichSubsectors
        (pre ++ ((sec.subsectors.map fun sub => (sec.name, sub)).map f ++ (sectorTasks secs).map f))
        pre.length sec.subsectors
        = sec.subsectors.map fun sub => ⟨sub, f (sec.name, sub)⟩ := by
      rw [hmm]
      exact enrichSubsectors_spec (fun sub => f (sec.name, sub)) sec.subsectors pre
        ((sectorTasks secs).map f)
    have h2 : (sec.subsectors.map fun sub => (sec.name, sub)).map
          (fun t : String × String => (⟨t.2, f t⟩ : SubsectorOut))
        = sec.subsectors.map fun sub => ⟨sub, f (sec.name, sub)⟩ := by
      rw [List.map_map]
      rfl
    rw [h1, h2]
    congr 1
    have hre : pre ++ ((sec.subsectors.map fun sub => (sec.name, sub)).map f ++ (sectorTasks secs).map f)
        = (pre ++ (sec.subsectors.map fun sub => (sec.name, sub)).map f) ++ (sectorTasks secs).map f := by
      simp
    have hlen : pre.length + sec.subsectors.length
        = (pre ++ (sec.subsectors.map fun sub => (sec.name, sub)).map f).length := by
      simp
    rw [hre, hlen]
    exact ih _

theorem runSchedule_getElem? (f : ℕ → List Company) :
    ∀ (order : List ℕ) (slots : List (Option (List Company))) (i : ℕ),
      (order.foldl (scheduleStep f) slots)[i]?
        = if i ∈ order then (if i < slots.length then some (some (f i)) else none)
          else slots[i]? := by
  intro order
  induction order with
  | nil => intro slots i; simp
  | cons o os ih =>
    intro slots i
    rw [List.foldl_cons, ih]
    by_cases hio : i ∈ os
    · simp [hio, scheduleStep]
    · by_cases heq : i = o
      · subst heq
        simp [hio, scheduleStep, List.getElem?_set]
      · have : o ≠ i := fun e => heq e.symm
        simp [hio, heq, scheduleStep, List.getElem?_set_ne this]

theorem runSchedule_perm (n : ℕ) (f : ℕ → List Company) (order : List ℕ)
    (h : order.Perm (List.range n)) :
    runSchedule n f order = (List.range n).map fun i => some (f i) := by
  apply List.ext_getElem?
  intro i
  unfold runSchedule
  rw [runSchedule_getElem?]
  have hmem : i ∈ order ↔ i < n := by rw [h.mem_iff, List.mem_range]
  by_cases hi : i < n
  · rw [if_pos (hmem.mpr hi), if_pos (by simpa using hi)]
    rw [List.getElem?_map, List.getElem?_range hi]
    rfl
  · rw [if_neg (fun hmem' => hi (hmem.mp hmem'))]
    rw [List.getElem?_eq_none (by simpa using Nat.le_of_not_lt hi),
      List.getElem?_eq_none (by simpa using Nat.le_of_not_lt hi)]

/-- C6: `process_all_sectors` yields exactly one enriched subsector entry per
(sector, subsector) pair, in the original input order — the gathered slot
list is indexed by task, so any completion order of the scheduled tasks
produces the same results — and a pair whose provider call raises is replaced
by exactly 9 identical placeholder companies without affecting any other
pair; in particular for 3 pairs whose 2nd call errors, the output has length
3 with positions 0 and 2 carrying their 9 provider companies and position 1
exactly 9 placeholders. -/
theorem c6_parallel_enrichment :
    (∀ (provider : String → String → Option (List Company)) (sectors : List SectorIn),
        ((process_all_sectors provider sectors).map SectorOut.subsectors).flatten
          = (sectorTasks sectors).map fun t =>
              ⟨t.2, get_companies_for_subsector provider t.1 t.2⟩) ∧
    (∀ (provider : String → String → Option (List Company)) (sector subsector : String),
        provider sector subsector = none →
        get_companies_for_subsector provider sector subsector
          = List.replicate 9 ⟨"Error processing " ++ subsector, "N/A"⟩) ∧
    (∀ (n : ℕ) (f : ℕ → List Company) (order : List ℕ),
        order.Perm (List.range n) →
        runSchedule n f order = (List.range n).map fun i => some (f i)) ∧
    (let prov : String → String → Option (List Company) := fun _ sub =>
        if sub = "a" then some (List.replicate 9 ⟨"CA", "1B"⟩)
        else if sub = "c" then some (List.replicate 9 ⟨"CC", "1B"⟩)
        else none
     let out := ((process_all_sectors prov [⟨"S", ["a", "b", "c"]⟩]).map
        SectorOut.subsectors).flatten
     out.length = 3 ∧
     out.getD 0 ⟨"", []⟩ = ⟨"a", List.replicate 9 ⟨"CA", "1B"⟩⟩ ∧
     out.getD 1 ⟨"", []⟩ = ⟨"b", List.replicate 9 ⟨"Error processing b", "N/A"⟩⟩ ∧
     out.getD 2 ⟨"", []⟩ = ⟨"c", List.replicate 9 ⟨"CC", "1B"⟩⟩ ∧
     (out.getD 1 ⟨"", []⟩).companies.length = 9) := by
  refine ⟨?_, ?_, runSchedule_perm, by decide⟩
  · intro provider sectors
    unfold process_all_sectors
    have h := enrichSectors_spec
      (fun t : String × String => get_companies_for_subsector provider t.1 t.2) sectors []
    simpa using h
  · intro provider sector subsector h
    unfold get_companies_for_subsector
    rw [h]

/-- C6, witness: a provider that always raises degrades pair ("S", "b") to
the 9 placeholders, and completing 2 tasks in the order `[1, 0]` yields the
slot list in task order. -/
theorem c6_parallel_enrichment_witness :
    get_companies_for_subsector (fun _ _ => none) "S" "b"
      = List.replicate 9 ⟨"Error processing " ++ "b", "N/A"⟩ ∧
    runSchedule 2 (fun _ => []) [1, 0]
      = (List.range 2).map fun _ => some ([] : List Company) :=
  ⟨c6_parallel_enrichment.2.1 (fun _ _ => none) "S" "b" rfl,
   c6_parallel_enrichment.2.2.1 2 (fun _ => []) [1, 0] (by decide)⟩

theorem toDigitsCore_acc (b : ℕ) :
    ∀ (fuel n : ℕ) (ds : List Char),
      Nat.toDigitsCore b fuel n ds = Nat.toDigitsCore b fuel n [] ++ ds := by
  intro fuel
  induction fuel with
  | zero => intro n ds; simp [Nat.toDigitsCore]
  | succ f ih =>
    intro n ds
    simp only [Nat.toDigitsCore]
    by_cases h : n / b = 0
    · simp [h]
    · simp only [h, if_false]
      rw [ih (n / b) (Nat.digitChar (n % b) :: ds), ih (n / b) [Nat.digitChar (n % b)]]
      simp

theorem charsVal_append_singleton (l : List Char) (c : Char) :
    charsVal (l ++ [c]) = 10 * charsVal l + (c.toNat - 48) := by
  simp [charsVal, List.foldl_append]

theorem digitChar_val : ∀ d < 10, (Nat.digitChar d).toNat - 48 = d := by decide

theorem charsVal_toDigitsCore :
    ∀ (fuel n : ℕ), n < fuel → charsVal (Nat.toDigitsCore 10 fuel n []) = n := by
  intro fuel
  induction fuel with
  | zero => intro n h; exact absurd h (Nat.not_lt_zero n)
  | succ f ih =>
    intro n h
    simp only [Nat.toDigitsCore]
    by_cases h0 : n / 10 = 0
    · have hn10 : n < 10 := by
        by_contra hge
        have : 1 ≤ n / 10 := Nat.one_le_div_iff (by norm_num) |>.mpr (Nat.le_of_not_lt hge)
        omega
      have hmod : n % 10 = n := Nat.mod_eq_of_lt hn10
      simp [h0, charsVal, hmod, digitChar_val n hn10]
    · simp only [h0, if_false]
      rw [toDigitsCore_acc 10 f (n / 10) [Nat.digitChar (n % 10)], charsVal_append_singleton]
      have hpos : 0 < n := by
        rcases Nat.eq_zero_or_pos n with rfl | hp
        · simp at h0
        · exact hp
      have hdiv : n / 10 < f := by
        have h1 : n / 10 < n := Nat.div_lt_self hpos (by norm_num)
        omega
      rw [ih (n / 10) hdiv, digitChar_val (n % 10) (Nat.mod_lt n (by norm_num))]
      exact Nat.div_add_mod n 10

theorem charsVal_repr (n : ℕ) : charsVal (Nat.repr n).data = n := by
  show charsVal (Nat.toDigitsCore 10 (n + 1) n []) = n
  exact charsVal_toDigitsCore (n + 1) n (Nat.lt_succ_self n)

theorem repr_injective : Function.Injective Nat.repr := by
  intro a b h
  have hv : charsVal (Nat.repr a).data = charsVal (Nat.repr b).data := by rw [h]
  rwa [charsVal_repr, charsVal_repr] at hv

theorem numbered_filename_inj (base : String) :
    Function.Injective (numbered_filename base) := by
  intro j k h
  unfold numbered_filename at h
  have hdata : (splitext base).1.data ++ '_' :: ((Nat.repr j).data ++ (splitext base).2.data)
      = (splitext base).1.data ++ '_' :: ((Nat.repr k).data ++ (splitext base).2.data) := by
    have := congrArg String.data h
    simpa using this
  have h1 := List.append_cancel_left hdata
  have h2 : (Nat.repr j).data ++ (splitext base).2.data
      = (Nat.repr k).data ++ (splitext base).2.data := by
    injection h1
  have h3 := List.append_cancel_right h2
  have h4 : Nat.repr j = Nat.repr k := by
    cases hj : Nat.repr j with
    | mk dj =>
      cases hk : Nat.repr k with
      | mk dk =>
        rw [hj, hk] at h3
        simp only at h3
        rw [h3]
  exact repr_injective h4

theorem exists_free_index (files : List String) (base : String) :
    ∃ i ∈ List.range (files.length + 1), numbered_filename base (2 + i) ∉ files := by
  by_contra hcon
  push_neg at hcon
  have hsub : ((List.range (files.length + 1)).map
      fun i => numbered_filename base (2 + i)) ⊆ files := by
    intro x hx
    obtain ⟨i, hi, rfl⟩ := List.mem_map.mp hx
    exact hcon i hi
  have hnodup : ((List.range (files.length + 1)).map
      fun i => numbered_filename base (2 + i)).Nodup := by
    refine List.Nodup.map ?_ (List.nodup_range _)
    intro a b hab
    have := numbered_filename_inj base hab
    omega
  have hcard : files.length + 1 ≤ files.length := by
    have h1 : ((List.range (files.length + 1)).map
        fun i => numbered_filename base (2 + i)).length = files.length + 1 := by simp
    have h2 : ((List.range (files.length + 1)).map
        fun i => numbered_filename base (2 + i)).toFinset.card = files.length + 1 := by
      rw [List.toFinset_card_of_nodup hnodup, h1]
    have h3 : ((List.range (files.length + 1)).map
          fun i => numbered_filename base (2 + i)).toFinset ⊆ files.toFinset := by
      intro x hx
      rw [List.mem_toFinset] at hx ⊢
      exact hsub hx
    calc files.length + 1 = _ := h2.symm
      _ ≤ files.toFinset.card := Finset.card_le_card h3
      _ ≤ files.length := files.toFinset_card_le
  omega

theorem find?_range_first :
    ∀ (n : ℕ) (p : ℕ → Bool) (i : ℕ),
      (List.range n).find? p = some i → p i = true ∧ ∀ j < i, p j = false := by
  intro n
  induction n with
  | zero => intro p i h; cases h
  | succ n ih =>
    intro p i h
    rw [List.range_succ_eq_map] at h
    by_cases hp0 : p 0
    · rw [List.find?_cons_of_pos _ hp0] at h
      obtain rfl : 0 = i := by injection h
      exact ⟨hp0, fun j hj => absurd hj (Nat.not_lt_zero j)⟩
    · rw [List.find?_cons_of_neg _ hp0, List.find?_map] at h
      cases hf : (List.range n).find? (p ∘ Nat.succ) with
      | none =>
        rw [hf] at h
        cases h
      | some i' =>
        rw [hf] at h
        obtain rfl : i'.succ = i := by injection h
        obtain ⟨hpi, hmin⟩ := ih (p ∘ Nat.succ) i' hf
        refine ⟨hpi, ?_⟩
        intro j hj
        cases j with
        | zero =>
          revert hp0
          cases p 0 <;> simp
        | succ j' => exact hmin j' (by omega)

theorem get_next_spec (files : List String) (base : String) :
    get_next_available_filename files base ∉ files ∧
    (get_next_available_filename files base = base ∨
      (base ∈ files ∧ ∃ k, 2 ≤ k ∧
        get_next_available_filename files base = numbered_filename base k ∧
        ∀ j, 2 ≤ j → j < k → numbered_filename base j ∈ files)) := by
  by_cases hb : base ∈ files
  · obtain ⟨i0, hi0, hfree⟩ := exists_free_index files base
    have hfind : ∃ i, (List.range (files.length + 1)).find?
        (fun i => !(numbered_filename base (2 + i) ∈ files : Bool)) = some i := by
      cases hf : (List.range (files.length + 1)).find?
          (fun i => !(numbered_filename base (2 + i) ∈ files : Bool)) with
      | some i => exact ⟨i, rfl⟩
      | none =>
        exfalso
        have := List.find?_eq_none.mp hf i0 hi0
        simp [hfree] at this
    obtain ⟨i, hi⟩ := hfind
    have hg : get_next_available_filename files base = numbered_filename base (2 + i) := by
      unfold get_next_available_filename
      rw [if_pos hb, hi]
    obtain ⟨hpi, hmin⟩ := find?_range_first _ _ _ hi
    rw [hg]
    constructor
    · simpa using hpi
    · right
      refine ⟨hb, 2 + i, by omega, rfl, ?_⟩
      intro j h2 hji
      have hm := hmin (j - 2) (by omega)
      have hj2 : 2 + (j - 2) = j := by omega
      rw [hj2] at hm
      simpa using hm
  · have hg : get_next_available_filename files base = base := by
      unfold get_next_available_filename
      rw [if_neg hb]
    rw [hg]
    exact ⟨hb, Or.inl rfl⟩

/-- C5: `get_next_available_filename` — and so both `save_mappings`
implementations, which write only to the name it returns — picks the first
name of the sequence `base, base_2, base_3, …` that does not already exist,
and the chosen name never names an existing file; in particular when
`company_ticker_map.json` exists the write goes to
`company_ticker_map_2.json`, and when that exists too the next write goes to
`company_ticker_map_3.json`. -/
theorem c5_next_filename_never_overwrites :
    (∀ (files : List String) (base : String),
        get_next_available_filename files base ∉ files) ∧
    (∀ (files : List String) (base : String),
        get_next_available_filename files base = base ∨
          (base ∈ files ∧ ∃ k, 2 ≤ k ∧
            get_next_available_filename files base = numbered_filename base k ∧
            ∀ j, 2 ≤ j → j < k → numbered_filename base j ∈ files)) ∧
    (∀ (files : List String) (taxonomy : Option (List SectorOut))
        (mappings : List (String × MapVal)) (metadata : List (String × MetaVal))
        (base : String),
        (save_mappings files taxonomy mappings metadata base).1
            = get_next_available_filename files base ∧
          (yf_save_mappings files mappings metadata base).1
            = get_next_available_filename files base) ∧
    get_next_available_filename ["company_ticker_map.json"] "company_ticker_map.json"
      = "company_ticker_map_2.json" ∧
    get_next_available_filename ["company_ticker_map.json", "company_ticker_map_2.json"]
        "company_ticker_map.json"
      = "company_ticker_map_3.json" := by
  refine ⟨fun files base => (get_next_spec files base).1,
    fun files base => (get_next_spec files base).2,
    fun files taxonomy mappings metadata base => ⟨rfl, rfl⟩,
    by decide, by decide⟩

theorem dictContains_iff_mem_keys {α : Type} (d : List (String × α)) (k : String) :
    dictContains d k = true ↔ k ∈ d.map Prod.fst := by
  simp [dictContains, List.any_eq_true, List.mem_map, beq_iff_eq]

theorem dictSet_append_of_not_contains {α : Type} {d : List (String × α)} {k : String}
    (h : dictContains d k = false) (v : α) : dictSet d k v = d ++ [(k, v)] := by
  unfold dictSet
  rw [if_neg (by simp [h])]

theorem dictGet_mapAdjust (g : List (String × List String)) (t c t' : String) :
    dictGet (g.map fun p => if p.1 == t then (p.1, p.2 ++ [c]) else p) t' =
      if t' = t then (dictGet g t).map (fun l => l ++ [c]) else dictGet g t' := by
  induction g with
  | nil => simp [dictGet]
  | cons hd tl ih =>
    simp only [List.map_cons, dictGet_cons, ih]
    by_cases h : hd.1 = t
    · by_cases h' : t' = t
      · subst h'
        simp [h]
      · have hne : ¬hd.1 = t' := by rw [h]; exact fun e => h' e.symm
        have htt' : ¬t = t' := fun e => h' e.symm
        simp [h, h', hne, htt']
    · by_cases h' : t' = t
      · subst h'
        simp [h]
      · by_cases h2 : hd.1 = t' <;> simp [h, h', h2]

theorem dictGet_appendGroup (g : List (String × List String)) (t c t' : String) :
    dictGet (appendGroup g t c) t' =
      if t' = t then some (((dictGet g t).getD []) ++ [c]) else dictGet g t' := by
  unfold appendGroup
  by_cases hc : dictContains g t
  · rw [if_pos hc, dictGet_mapAdjust]
    by_cases h' : t' = t
    · rw [if_pos h', if_pos h']
      rw [dictContains_eq_isSome] at hc
      cases hg : dictGet g t
      · rw [hg] at hc; simp at hc
      · simp
    · rw [if_neg h', if_neg h']
  · simp only [Bool.not_eq_true] at hc
    rw [if_neg (by simp [hc]), dictGet_append]
    by_cases h' : t' = t
    · subst h'
      rw [dictGet_eq_none hc]
      simp [dictGet_cons, Option.or]
    · have hsingle : dictGet [(t, [c])] t' = none := by
        have htt' : ¬t = t' := fun e => h' e.symm
        rw [dictGet_cons]
        simp [htt', dictGet]
      rw [hsingle, if_neg h']
      cases dictGet g t' <;> simp [Option.or]

theorem keys_appendGroup (g : List (String × List String)) (t c : String) :
    (appendGroup g t c).map Prod.fst =
      if dictContains g t then g.map Prod.fst else g.map Prod.fst ++ [t] := by
  unfold appendGroup
  by_cases hc : dictContains g t
  · rw [if_pos hc, if_pos hc, List.map_map]
    apply List.map_congr_left
    intro p _
    by_cases h : p.1 = t <;> simp [h]
  · rw [if_neg hc, if_neg hc, List.map_append]
    rfl

theorem nodup_keys_appendGroup {g : List (String × List String)} (t c : String)
    (h : (g.map Prod.fst).Nodup) : ((appendGroup g t c).map Prod.fst).Nodup := by
  rw [keys_appendGroup]
  by_cases hc : dictContains g t
  · rwa [if_pos hc]
  · rw [if_neg hc]
    have hni : t ∉ g.map Prod.fst := by
      intro hmem
      exact hc ((dictContains_iff_mem_keys g t).mpr hmem)
    simp [List.nodup_append, h, hni]

theorem group_fold_get :
    ∀ (l : List (String × MapVal)) (g : List (String × List String)),
      (∀ p ∈ l, p.2 = MapVal.null ∨ ∃ s, p.2 = MapVal.str s) →
      ∃ gl, l.foldl groupStep (Except.ok g) = Except.ok gl ∧
        ∀ t, dictGet gl t =
          match dictGet g t with
          | some l0 => some (l0 ++ companies_sharing l t)
          | none =>
            if companies_sharing l t = [] then none else some (companies_sharing l t) := by
  intro l
  induction l with
  | nil =>
    intro g _
    refine ⟨g, rfl, ?_⟩
    intro t
    simp only [companies_sharing, List.filter_nil, List.map_nil]
    cases dictGet g t <;> simp
  | cons p ps ih =>
    intro g hsn
    rcases hsn p (List.mem_cons_self p ps) with hnull | ⟨s, hstr⟩
    · have hstep : groupStep (Except.ok g) p = Except.ok g := by
        unfold groupStep
        rw [hnull]
      rw [List.foldl_cons, hstep]
      obtain ⟨gl, hgl, hget⟩ := ih g (fun q hq => hsn q (List.mem_cons_of_mem p hq))
      refine ⟨gl, hgl, ?_⟩
      intro t
      rw [hget t]
      have hsh : companies_sharing (p :: ps) t = companies_sharing ps t := by
        unfold companies_sharing
        rw [List.filter_cons]
        simp [hnull]
      rw [hsh]
    · have hstep : groupStep (Except.ok g) p = Except.ok (appendGroup g s p.1) := by
        unfold groupStep
        rw [hstr]
      rw [List.foldl_cons, hstep]
      obtain ⟨gl, hgl, hget⟩ := ih (appendGroup g s p.1)
        (fun q hq => hsn q (List.mem_cons_of_mem p hq))
      refine ⟨gl, hgl, ?_⟩
      intro t
      rw [hget t, dictGet_appendGroup]
      have hsh : companies_sharing (p :: ps) t
          = if t = s then p.1 :: companies_sharing ps t else companies_sharing ps t := by
        unfold companies_sharing
        rw [List.filter_cons]
        by_cases he : t = s
        · subst he
          simp [hstr]
        · have : ¬p.2 = MapVal.str t := by
            rw [hstr]
            intro e
            exact he (MapVal.str.inj e).symm
          simp [this, he]
      rw [hsh]
      by_cases he : t = s
      · subst he
        rw [if_pos rfl, if_pos rfl]
        cases hg0 : dictGet g t <;> simp
      · rw [if_neg he, if_neg he]

theorem group_fold_nodup :
    ∀ (l : List (String × MapVal)) (g : List (String × List String)) (gl : _),
      (g.map Prod.fst).Nodup →
      l.foldl groupStep (Except.ok g) = Except.ok gl → (gl.map Prod.fst).Nodup := by
  intro l
  induction l with
  | nil =>
    intro g gl hnd h
    rw [List.foldl_nil] at h
    cases h
    exact hnd
  | cons p ps ih =>
    intro g gl hnd h
    rw [List.foldl_cons] at h
    cases hv : p.2 with
    | null =>
      have hstep : groupStep (Except.ok g) p = Except.ok g := by
        unfold groupStep
        rw [hv]
      rw [hstep] at h
      exact ih g gl hnd h
    | str s =>
      have hstep : groupStep (Except.ok g) p = Except.ok (appendGroup g s p.1) := by
        unfold groupStep
        rw [hv]
      rw [hstep] at h
      exact ih _ gl (nodup_keys_appendGroup s p.1 hnd) h
    | obj sym notes =>
      have hstep : groupStep (Except.ok g) p = Except.error PyErr.typeError := by
        unfold groupStep
        rw [hv]
      rw [hstep, groupStep_error] at h
      cases h

theorem dictGet_filter_vals (q : List String → Bool) :
    ∀ (g : List (String × List String)), (g.map Prod.fst).Nodup → ∀ (t : String),
      dictGet (g.filter fun p => q p.2) t =
        match dictGet g t with
        | some v => if q v then some v else none
        | none => none := by
  intro g
  induction g with
  | nil => intro _ t; simp [dictGet]
  | cons hd tl ih =>
    intro hnd t
    have hnd2 : (∀ x : List String, (hd.1, x) ∉ tl) ∧ (tl.map Prod.fst).Nodup := by
      simpa using hnd
    rw [List.filter_cons]
    by_cases hq : q hd.2
    · rw [if_pos (by simpa using hq), dictGet_cons, dictGet_cons]
      by_cases h : hd.1 = t
      · rw [if_pos h, if_pos h]
        simp [hq]
      · rw [if_neg h, if_neg h, ih hnd2.2 t]
    · rw [if_neg (by simpa using hq), dictGet_cons]
      by_cases h : hd.1 = t
      · subst h
        rw [if_pos rfl]
        have htl : dictGet tl hd.1 = none := by
          apply dictGet_eq_none
          cases hct : dictContains tl hd.1
          · rfl
          · exfalso
            obtain ⟨p, hp, he⟩ := List.mem_map.mp ((dictContains_iff_mem_keys tl hd.1).mp hct)
            have hmem : (hd.1, p.2) ∈ tl := by
              rw [← he]
              exact hp
            exact hnd2.1 p.2 hmem
        rw [ih hnd2.2 hd.1, htl]
        simp [hq]
      · rw [if_neg h, ih hnd2.2 t]

theorem annotateVal_ok (dups : List (String × List String)) (c : String) (v : MapVal)
    (h : v = MapVal.null ∨ ∃ s, v = MapVal.str s) :
    ∃ w, annotateVal dups c v = Except.ok w := by
  rcases h with rfl | ⟨s, rfl⟩
  · exact ⟨_, rfl⟩
  · unfold annotateVal
    dsimp only
    by_cases hc : dictContains dups s
    · rw [if_pos hc]
      exact ⟨_, rfl⟩
    · rw [if_neg hc]
      exact ⟨_, rfl⟩

theorem annotate_fold (dups : List (String × List String)) :
    ∀ (l : List (String × MapVal)) (acc : List (String × MapVal)),
      (∀ p ∈ l, p.2 = MapVal.null ∨ ∃ s, p.2 = MapVal.str s) →
      (∀ k, k ∈ l.map Prod.fst → dictContains acc k = false) →
      (l.map Prod.fst).Nodup →
      l.foldl (annotateStep dups) (Except.ok acc)
        = Except.ok (acc ++ l.map fun p =>
            (p.1, match annotateVal dups p.1 p.2 with
                  | Except.ok w => w
                  | Except.error _ => MapVal.obj none none)) := by
  intro l
  induction l with
  | nil => intro acc _ _ _; simp
  | cons p ps ih =>
    intro acc hsn hfresh hnd
    obtain ⟨w, hw⟩ := annotateVal_ok dups p.1 p.2 (hsn p (List.mem_cons_self p ps))
    have hcontains : dictContains acc p.1 = false := hfresh p.1 (by simp)
    have hstep : annotateStep dups (Except.ok acc) p = Except.ok (acc ++ [(p.1, w)]) := by
      unfold annotateStep
      rw [hw]
      dsimp only
      rw [dictSet_append_of_not_contains hcontains]
    rw [List.foldl_cons, hstep]
    have hndc : (p.1 :: ps.map Prod.fst).Nodup := by simpa using hnd
    have hnd' : (ps.map Prod.fst).Nodup := (List.nodup_cons.mp hndc).2
    have hp1 : p.1 ∉ ps.map Prod.fst := (List.nodup_cons.mp hndc).1
    rw [ih (acc ++ [(p.1, w)]) (fun q hq => hsn q (List.mem_cons_of_mem p hq)) ?_ hnd']
    · rw [List.map_cons, hw]
      simp
    · intro k hk
      have h1 : dictContains acc k = false := hfresh k (by simp [hk])
      have h2 : ¬p.1 = k := fun e => hp1 (e ▸ hk)
      rw [dictContains_append, h1]
      simp [dictContains, h2]

theorem clean_inversion (m : List (String × MapVal)) (A : List (String × MapVal))
    (D : List (String × List String))
    (h : clean_duplicate_tickers m = Except.ok (some (A, D))) :
    ∃ g, group_tickers m = Except.ok g ∧ D = duplicatesOf g ∧
      annotate_mappings m D = Except.ok A := by
  unfold clean_duplicate_tickers at h
  cases hg : group_tickers m with
  | error e =>
    rw [hg] at h
    cases h
  | ok g =>
    rw [hg] at h
    dsimp only at h
    by_cases hd : (duplicatesOf g).isEmpty
    · rw [if_pos hd] at h
      cases h
    · rw [if_neg hd] at h
      cases ha : annotate_mappings m (duplicatesOf g) with
      | error e =>
        rw [ha] at h
        cases h
      | ok a =>
        rw [ha] at h
        have h2 : a = A ∧ duplicatesOf g = D := by
          have := Except.ok.inj h
          have := Option.some.inj this
          exact ⟨congrArg Prod.fst this, congrArg Prod.snd this⟩
        refine ⟨g, rfl, h2.2.symm, ?_⟩
        rw [← h2.2, ha, h2.1]

theorem dictGet_duplicatesOf (g : List (String × List String))
    (hnd : (g.map Prod.fst).Nodup) (t : String) :
    dictGet (duplicatesOf g) t =
      match dictGet g t with
      | some v => if decide (1 < v.length) = true then some v else none
      | none => none :=
  dictGet_filter_vals (fun v => decide (1 < v.length)) g hnd t

/-- C7: on a mapping with string-or-null values and unique company keys,
`clean_duplicate_tickers` computes, for each ticker shared by more than one
company, the complete in-order company list sharing it (the `duplicates`
dict holds exactly the tickers whose sharing list has length above 1), and
produces an annotated mapping in which every company of a duplicated ticker
carries a non-null note listing the other companies sharing that ticker,
while every other entry carries a null note; the input mapping itself is
not modified (the annotated mapping is a fresh structure handed to
`save_mappings`).  The example `{"A": "TIK", "B": "TIK", "C": "OTH"}`
produces duplicates `{"TIK": ["A", "B"]}` and the fully annotated output. -/
theorem c7_clean_duplicate_tickers :
    (group_tickers [("A", MapVal.str "TIK"), ("B", MapVal.str "TIK"), ("C", MapVal.str "OTH")]
        = Except.ok [("TIK", ["A", "B"]), ("OTH", ["C"])] ∧
      clean_duplicate_tickers
          [("A", MapVal.str "TIK"), ("B", MapVal.str "TIK"), ("C", MapVal.str "OTH")]
        = Except.ok (some
            ([("A", MapVal.obj (some "TIK") (some "Duplicate ticker used by: B")),
              ("B", MapVal.obj (some "TIK") (some "Duplicate ticker used by: A")),
              ("C", MapVal.obj (some "OTH") none)],
             [("TIK", ["A", "B"])]))) ∧
    (∀ (m A : List (String × MapVal)) (D : List (String × List String)),
        (∀ p ∈ m, p.2 = MapVal.null ∨ ∃ s, p.2 = MapVal.str s) →
        (m.map Prod.fst).Nodup →
        clean_duplicate_tickers m = Except.ok (some (A, D)) →
        (∀ t cs, dictGet D t = some cs →
            cs = companies_sharing m t ∧ 1 < cs.length) ∧
        (∀ t, 1 < (companies_sharing m t).length →
            dictGet D t = some (companies_sharing m t)) ∧
        (∀ p ∈ m, ∀ t, p.2 = MapVal.str t → 1 < (companies_sharing m t).length →
            (p.1, MapVal.obj (some t)
              (some (duplicateNote
                ((companies_sharing m t).filter (· ≠ p.1))))) ∈ A) ∧
        (∀ p ∈ m, ∀ t, p.2 = MapVal.str t → (companies_sharing m t).length ≤ 1 →
            (p.1, MapVal.obj (some t) none) ∈ A) ∧
        (∀ p ∈ m, p.2 = MapVal.null → (p.1, MapVal.obj none none) ∈ A)) := by
  refine ⟨⟨rfl, rfl⟩, ?_⟩
  intro m A D hsn hnd hclean
  obtain ⟨g, hg, hD, hA⟩ := clean_inversion m A D hclean
  obtain ⟨gl, hgl, hget⟩ := group_fold_get m [] hsn
  have hnodup_gl : (gl.map Prod.fst).Nodup := group_fold_nodup m [] gl (by simp) hgl
  have hggl : g = gl := by
    unfold group_tickers at hg
    rw [hg] at hgl
    exact Except.ok.inj hgl
  have hget' : ∀ t, dictGet gl t =
      if companies_sharing m t = [] then none else some (companies_sharing m t) := by
    intro t
    have h0 := hget t
    simpa [dictGet] using h0
  have hDdup : ∀ t, dictGet D t =
      match dictGet gl t with
      | some v => if decide (1 < v.length) = true then some v else none
      | none => none := by
    intro t
    rw [hD, hggl]
    exact dictGet_duplicatesOf gl hnodup_gl t
  -- part (b) first, reused below
  have hb : ∀ t, 1 < (companies_sharing m t).length →
      dictGet D t = some (companies_sharing m t) := by
    intro t hlen
    have hne : ¬companies_sharing m t = [] := by
      intro e
      rw [e] at hlen
      simp at hlen
    rw [hDdup t, hget' t, if_neg hne]
    simp [hlen]
  -- value of dictGet D t when the sharing list is short
  have hDnone : ∀ t, (companies_sharing m t).length ≤ 1 → dictGet D t = none := by
    intro t hlen
    rw [hDdup t, hget' t]
    by_cases hne : companies_sharing m t = []
    · rw [if_pos hne]
    · rw [if_neg hne]
      have : ¬(1 < (companies_sharing m t).length) := by omega
      simp [this]
  -- the annotated list
  have hAfold := annotate_fold D m [] hsn (fun k _ => rfl) hnd
  have hAeq : A = m.map fun p =>
      (p.1, match annotateVal D p.1 p.2 with
            | Except.ok w => w
            | Except.error _ => MapVal.obj none none) := by
    unfold annotate_mappings at hA
    rw [hAfold] at hA
    have h1 := Except.ok.inj hA
    rw [← h1]
    simp
  refine ⟨?_, hb, ?_, ?_, ?_⟩
  · -- part (a)
    intro t cs hcs
    rw [hDdup t] at hcs
    cases hg0 : dictGet gl t with
    | none =>
      rw [hg0] at hcs
      cases hcs
    | some v =>
      rw [hg0] at hcs
      dsimp only at hcs
      by_cases hq : 1 < v.length
      · rw [if_pos (decide_eq_true hq)] at hcs
        have hveq : v = cs := Option.some.inj hcs
        rw [hget' t] at hg0
        by_cases hne : companies_sharing m t = []
        · rw [if_pos hne] at hg0
          cases hg0
        · rw [if_neg hne] at hg0
          have hv2 : companies_sharing m t = v := Option.some.inj hg0
          subst hveq
          exact ⟨hv2.symm, hq⟩
      · rw [if_neg (by simpa using hq)] at hcs
        cases hcs
  · -- part (c): duplicated ticker entries carry the note
    intro p hp t hv hlen
    have hDt : dictGet D t = some (companies_sharing m t) := hb t hlen
    have hcD : dictContains D t = true := by
      rw [dictContains_eq_isSome, hDt]
      rfl
    have hval : annotateVal D p.1 p.2 = Except.ok (MapVal.obj (some t)
        (some (duplicateNote ((companies_sharing m t).filter (· ≠ p.1))))) := by
      rw [hv]
      unfold annotateVal
      dsimp only
      rw [if_pos hcD, hDt]
      rfl
    rw [hAeq]
    refine List.mem_map.mpr ⟨p, hp, ?_⟩
    rw [hval]
  · -- part (d): non-duplicated string entries carry a null note
    intro p hp t hv hlen
    have hcD : dictContains D t = false := by
      rw [dictContains_eq_isSome, hDnone t hlen]
      rfl
    have hval : annotateVal D p.1 p.2 = Except.ok (MapVal.obj (some t) none) := by
      rw [hv]
      unfold annotateVal
      dsimp only
      rw [if_neg (by simp [hcD])]
    rw [hAeq]
    refine List.mem_map.mpr ⟨p, hp, ?_⟩
    rw [hval]
  · -- part (e): null entries carry a null symbol and note
    intro p hp hv
    have hval : annotateVal D p.1 p.2 = Except.ok (MapVal.obj none none) := by
      rw [hv]
      rfl
    rw [hAeq]
    refine List.mem_map.mpr ⟨p, hp, ?_⟩
    rw [hval]

/-- C7, witness: the general clauses applied to the example mapping
`{"A": "TIK", "B": "TIK", "C": "OTH"}` with its computed duplicates and
annotated output. -/
theorem c7_clean_duplicate_tickers_witness :
    (["A", "B"] = companies_sharing
        [("A", MapVal.str "TIK"), ("B", MapVal.str "TIK"), ("C", MapVal.str "OTH")] "TIK" ∧
      1 < (["A", "B"] : List String).length) ∧
    ("A", MapVal.obj (some "TIK") (some (duplicateNote
        ((companies_sharing [("A", MapVal.str "TIK"), ("B", MapVal.str "TIK"),
            ("C", MapVal.str "OTH")] "TIK").filter (· ≠ "A")))))
      ∈ [("A", MapVal.obj (some "TIK") (some "Duplicate ticker used by: B")),
         ("B", MapVal.obj (some "TIK") (some "Duplicate ticker used by: A")),
         ("C", MapVal.obj (some "OTH") none)] := by
  have h := c7_clean_duplicate_tickers.2
    [("A", MapVal.str "TIK"), ("B", MapVal.str "TIK"), ("C", MapVal.str "OTH")]
    [("A", MapVal.obj (some "TIK") (some "Duplicate ticker used by: B")),
     ("B", MapVal.obj (some "TIK") (some "Duplicate ticker used by: A")),
     ("C", MapVal.obj (some "OTH") none)]
    [("TIK", ["A", "B"])]
    (by
      intro p hp
      simp only [List.mem_cons, List.not_mem_nil, or_false] at hp
      rcases hp with rfl | rfl | rfl
      · exact Or.inr ⟨"TIK", rfl⟩
      · exact Or.inr ⟨"TIK", rfl⟩
      · exact Or.inr ⟨"OTH", rfl⟩)
    (by decide)
    rfl
  refine ⟨h.1 "TIK" ["A", "B"] (by decide), ?_⟩
  exact h.2.2.1 ("A", MapVal.str "TIK") (by decide) "TIK" rfl (by decide)
